import Mathlib

/-!
Verification of the greenfield image container: a shallow embedding of the
core data model (colors, uniform quantization schemes, the bit-packing codec
and the on-disk container) together with theorems checking the stated
properties of the codec.

Machine integers of the source (`u8`, `usize`) are embedded as `Nat` with
explicit `% 2 ^ w` truncation where the source's arithmetic can wrap or
truncate, and with the `u8` range carried as hypotheses where a proof needs
it.  Expressions whose `u8` arithmetic aborts at runtime (debug-mode overflow
of `7 - b` for a bit width `b ≥ 8`, division by a zero chunk size) are
embedded as `Option`/dedicated error values.
-/

set_option maxRecDepth 100000

namespace Greenfield

/-- `color::Rgb`: three 8-bit channels.  Channels are embedded as `Nat`;
the `u8` bound `< 256` is a hypothesis where proofs need it. -/
structure Rgb where
  r : Nat
  g : Nat
  b : Nat
deriving DecidableEq

/-- `quantization::UniformQuantization`: per-channel bit widths
(each stored in a 4-bit field on disk). -/
structure UniformQuantization where
  bits_r : Nat
  bits_g : Nat
  bits_b : Nat
deriving DecidableEq

/-- The error values of `error::GreenfieldError` reachable from the embedded
core (the io/deku variants carry no data the claims mention). -/
inductive GreenfieldError where
  | InvalidQuantizationLevel (r g b : Nat)
  | InvalidDataSize (expected found : Nat)
  | InvalidImageDimension (found expected : Nat)
deriving DecidableEq

/-- The range `[1, 8]` enforced by `UniformQuantization::new`. -/
def ValidScheme (q : UniformQuantization) : Prop :=
  (1 ≤ q.bits_r ∧ q.bits_r ≤ 8) ∧ (1 ≤ q.bits_g ∧ q.bits_g ≤ 8) ∧
    (1 ≤ q.bits_b ∧ q.bits_b ≤ 8)

instance (q : UniformQuantization) : Decidable (ValidScheme q) := by
  unfold ValidScheme; infer_instance

/-- `UniformQuantization::new`: validates that every bit width is in `[1, 8]`. -/
def UniformQuantization.new (bits_r bits_g bits_b : Nat) :
    Except GreenfieldError UniformQuantization :=
  if (1 ≤ bits_r ∧ bits_r ≤ 8) ∧ (1 ≤ bits_g ∧ bits_g ≤ 8) ∧
      (1 ≤ bits_b ∧ bits_b ≤ 8) then
    .ok ⟨bits_r, bits_g, bits_b⟩
  else
    .error (.InvalidQuantizationLevel bits_r bits_g bits_b)

/-- One channel of the general arm of `get_quantized_color`: `v >> (8 - b)` on
`u8`.  Total here: the source's `u8` expression aborts only for `b = 0` (shift
amount 8) or `b > 8` (`8 - b` underflows), both outside the `[1, 8]` range
`UniformQuantization::new` enforces, and every theorem touching this
definition carries that range as a hypothesis. -/
def quantChannel (b v : Nat) : Nat := v >>> (8 - b)

/-- `UniformQuantization::get_quantized_color`: fast path for the full
precision scheme `(8,8,8)`, otherwise `v >> (8 - b)` per channel. -/
def UniformQuantization.get_quantized_color (q : UniformQuantization)
    (c : Rgb) : Rgb :=
  if q = ⟨8, 8, 8⟩ then ⟨c.r, c.g, c.b⟩
  else ⟨quantChannel q.bits_r c.r, quantChannel q.bits_g c.g,
    quantChannel q.bits_b c.b⟩

/-- One channel of the general arm of `get_dequantized_color`:
`(v << (8 - b)) + (1 << (7 - b))` on `u8`.  For `b ≥ 8` the `u8` subtraction
`7 - b` overflows and the program aborts (debug build), embedded as `none`.
For `b ≤ 7` the left shift truncates to `u8` (`% 256`) and the sum stays
below 256 (the low `8 - b` bits of the shifted value are zero), so the `u8`
addition never aborts and plain `Nat` addition is faithful. -/
def dequantChannel (b v : Nat) : Option Nat :=
  if b ≤ 7 then some ((v <<< (8 - b)) % 256 + 1 <<< (7 - b)) else none

/-- `UniformQuantization::get_dequantized_color`: fast path for `(8,8,8)`,
otherwise the interval-midpoint reconstruction per channel. -/
def UniformQuantization.get_dequantized_color (q : UniformQuantization)
    (c : Rgb) : Option Rgb :=
  if q = ⟨8, 8, 8⟩ then some ⟨c.r, c.g, c.b⟩
  else do
    let r ← dequantChannel q.bits_r c.r
    let g ← dequantChannel q.bits_g c.g
    let b ← dequantChannel q.bits_b c.b
    pure ⟨r, g, b⟩

/-- The per-channel dequantization formula exactly as the specification
states it: `(index << (8 - b)) + (1 << (7 - b))`, in plain `Nat` arithmetic
(meaningful for `b ≤ 7`).  Used to compare the source's computation with the
spec's words. -/
def dequantSpecChannel (b v : Nat) : Nat :=
  (v <<< (8 - b)) + (1 <<< (7 - b))

/-- Big-endian (Msb0, most-significant-bit first) bit image of the low `k`
bits of `v`; this is what bitvec's `store_be` writes into a `k`-bit Msb0
region. -/
def natToBits : Nat → Nat → List Bool
  | 0, _ => []
  | k + 1, v => natToBits k (v / 2) ++ [v % 2 == 1]

/-- bitvec's `load_be`: read an Msb0 bit slice as a big-endian unsigned
integer. -/
def loadBE (bs : List Bool) : Nat :=
  bs.foldl (fun acc bit => 2 * acc + (if bit then 1 else 0)) 0

/-- Fuel-driven worker for `chunksExact` (structural recursion so that closed
computations reduce). -/
def chunksExactAux (k : Nat) : Nat → List Bool → List (List Bool)
  | 0, _ => []
  | fuel + 1, xs =>
    if 0 < k ∧ k ≤ xs.length then
      xs.take k :: chunksExactAux k fuel (xs.drop k)
    else []

/-- `chunks_exact(k)` over an Msb0 bit slice: the maximal list of `k`-bit
chunks in order, any final partial chunk discarded.  (The source never calls
it with `k = 0`: `decompress` is only reached through schemes whose chunk
size is positive, and `data_read` divides by the chunk size first.) -/
def chunksExact (k : Nat) (xs : List Bool) : List (List Bool) :=
  chunksExactAux k xs.length xs

/-- `slice[start .. start+len].store_be(v)` on an Msb0 bit vector: overwrite
the `len` bits starting at `start` with the big-endian image of `v`. -/
def storeBE (dst : List Bool) (start len v : Nat) : List Bool :=
  dst.take start ++ natToBits len v ++ dst.drop (start + len)

/-- The body of `compress`'s loop: quantize record `ic.2` (enumerated at
index `ic.1`) and `store_be` its channels at offsets `index`,
`index + bits_r`, `index + bits_r + bits_g` of the accumulator, where
`index = ic.1 * data_size`. -/
def compressStep (q : UniformQuantization) (data_size : Nat)
    (acc : List Bool) (ic : Nat × Rgb) : List Bool :=
  let qc := q.get_quantized_color ic.2
  let index := ic.1 * data_size
  let acc1 := storeBE acc index q.bits_r qc.r
  let acc2 := storeBE acc1 (index + q.bits_r) q.bits_g qc.g
  storeBE acc2 (index + q.bits_r + q.bits_g) q.bits_b qc.b

/-- `UniformQuantization::compress`: quantize every record and store the
quantized channels big-endian into a pre-allocated zero bit vector of
`colors.len() * (bits_r + bits_g + bits_b)` bits, the record `i` occupying
the bits from `i * data_size`, its channels in order r, g, b. -/
def UniformQuantization.compress (q : UniformQuantization)
    (colors : List Rgb) : List Bool :=
  let data_size := q.bits_r + q.bits_g + q.bits_b
  colors.enum.foldl (compressStep q data_size)
    (List.replicate (colors.length * data_size) false)

/-- Option-valued map that stops at the first failure; models a loop whose
body can abort the program. -/
def mapMOpt (f : α → Option β) : List α → Option (List β)
  | [] => some []
  | a :: as => do
    let b ← f a
    let bs ← mapMOpt f as
    pure (b :: bs)

/-- `UniformQuantization::decompress`: cut the bit slice into
`bits_r + bits_g + bits_b`-bit chunks (`chunks_exact`, remainder ignored),
load each field big-endian and dequantize.  `Option`-valued because
`get_dequantized_color` can abort (see `dequantChannel`). -/
def UniformQuantization.decompress (q : UniformQuantization)
    (data : List Bool) : Option (List Rgb) :=
  let data_size := q.bits_r + q.bits_g + q.bits_b
  mapMOpt
    (fun chunk =>
      let r := loadBE (chunk.take q.bits_r)
      let g := loadBE ((chunk.drop q.bits_r).take q.bits_g)
      let b := loadBE (chunk.drop (q.bits_r + q.bits_g))
      q.get_dequantized_color ⟨r, g, b⟩)
    (chunksExact data_size data)

/-- The bit layout of one packed record as the specification describes it:
quantize, then the channels in order r, g, b, each big-endian in exactly its
field width, concatenated with no padding.  Used to compare `compress`'s
store-at-offset loop with the spec's words. -/
def packedRecord (q : UniformQuantization) (c : Rgb) : List Bool :=
  let qc := q.get_quantized_color c
  natToBits q.bits_r qc.r ++ natToBits q.bits_g qc.g ++ natToBits q.bits_b qc.b

/-- `pixel::Pixel`: a position and a color.  The source borrows the color;
the embedding stores it by value. -/
structure Pixel where
  x : Nat
  y : Nat
  color : Rgb
deriving DecidableEq

/-- `image::Image`: width, height, scheme and the linear color array. -/
structure Image where
  width : Nat
  height : Nat
  uniform_quantization : UniformQuantization
  data : List Rgb
deriving DecidableEq

/-- `Image::new`: require `data.len() == width * height`
(`InvalidImageDimension(found, expected)` otherwise) and store the data with
every color quantized through the scheme. -/
def Image.new (width height : Nat) (q : UniformQuantization)
    (data : List Rgb) : Except GreenfieldError Image :=
  if width * height = data.length then
    .ok ⟨width, height, q, data.map q.get_quantized_color⟩
  else
    .error (.InvalidImageDimension data.length (width * height))

/-- `Image::pixels`: enumerate the stored colors, pairing index `i` with the
coordinates `(i / width, i % height)` exactly as the source computes them.
(`Nat` division by zero is 0 here; in the source a zero width with a
non-empty data array would abort, which is unreachable under the constructor
invariant `data.len() == width * height`.) -/
def Image.pixels (img : Image) : List Pixel :=
  img.data.enum.map fun ic => ⟨ic.1 / img.width, ic.1 % img.height, ic.2⟩

/-- The 8-byte magic `b"grnfld42"`. -/
def magicBytes : List Nat := [103, 114, 110, 102, 108, 100, 52, 50]

/-- A byte list as its Msb0 bit stream. -/
def bytesToBits (bytes : List Nat) : List Bool :=
  List.flatten (bytes.map (natToBits 8))

/-- A byte-aligned Msb0 bit stream as bytes. -/
def bitsToBytes (bits : List Bool) : List Nat :=
  (chunksExact 8 bits).map loadBE

/-- Zero-fill the low-order end of the final byte, as the Msb0 bit vector's
byte backing does. -/
def padToByte (bits : List Bool) : List Bool :=
  bits ++ List.replicate ((8 - bits.length % 8) % 8) false

/-- `Image::data_write`: require `data.len() == width * height`
(`InvalidImageDimension(found, expected)` otherwise) and append
`compress(data)` to the output. -/
def Image.data_write (data : List Rgb) (q : UniformQuantization)
    (width height : Nat) : Except GreenfieldError (List Bool) :=
  if width * height = data.length then .ok (q.compress data)
  else .error (.InvalidImageDimension data.length (width * height))

/-- The deku writer for `Image`, at bit level: the magic, 32-bit big-endian
width and height, the three 4-bit scheme fields, then the packed pixel
stream from `data_write`. -/
def Image.serializeBits (img : Image) : Except GreenfieldError (List Bool) := do
  let payload ← Image.data_write img.data img.uniform_quantization
    img.width img.height
  pure (bytesToBits magicBytes
    ++ natToBits 32 img.width ++ natToBits 32 img.height
    ++ natToBits 4 img.uniform_quantization.bits_r
    ++ natToBits 4 img.uniform_quantization.bits_g
    ++ natToBits 4 img.uniform_quantization.bits_b
    ++ payload)

/-- `Image::serialize`: the bit stream padded to a whole number of bytes. -/
def Image.serialize (img : Image) : Except GreenfieldError (List Nat) := do
  let bits ← img.serializeBits
  pure (bitsToBytes (padToByte bits))

/-- Failures of `Image::deserialize`.  `headerTruncated` stands for deku's
`Incomplete` (fewer than 140 header bits), `badMagic` for the magic-mismatch
parse error, `dimensionMismatch found expected` for
`InvalidImageDimension(found, expected)` raised by `data_read`, and
`panicked` for a runtime abort (chunk size zero, or `get_dequantized_color`
on a scheme mixing an 8-bit channel with narrower ones). -/
inductive ReadError where
  | headerTruncated
  | badMagic
  | dimensionMismatch (found expected : Nat)
  | panicked
deriving DecidableEq

/-- `Image::data_read`: with `bits` the chunk size and
`count = width * height`, require the number of whole chunks present
(`rest.len() / bits`) to equal `count` exactly, then decompress and consume
everything. -/
def Image.data_read (rest : List Bool) (q : UniformQuantization)
    (width height : Nat) : Except ReadError (List Rgb) :=
  let bits := q.bits_r + q.bits_g + q.bits_b
  if bits = 0 then .error .panicked
  else
    let count := width * height
    let data_len := rest.length / bits
    if count = data_len then
      match q.decompress rest with
      | some colors => .ok colors
      | none => .error .panicked
    else .error (.dimensionMismatch data_len count)

/-- The deku reader for `Image`, at bit level: check the 8-byte magic, read
the 32-bit big-endian width and height and the three 4-bit scheme fields,
then hand the remaining bits to `data_read`.  (deku reports a magic mismatch
and a truncated input with distinct errors; this embedding checks the total
header length first, which distinguishes the same failing inputs.) -/
def Image.deserializeBits (bits : List Bool) : Except ReadError Image :=
  if bits.length < 140 then .error .headerTruncated
  else if bits.take 64 ≠ bytesToBits magicBytes then .error .badMagic
  else
    let width := loadBE ((bits.drop 64).take 32)
    let height := loadBE ((bits.drop 96).take 32)
    let q : UniformQuantization :=
      ⟨loadBE ((bits.drop 128).take 4), loadBE ((bits.drop 132).take 4),
        loadBE ((bits.drop 136).take 4)⟩
    (Image.data_read (bits.drop 140) q width height).map
      fun data => ⟨width, height, q, data⟩

/-- `Image::deserialize` on a byte buffer. -/
def Image.deserialize (bytes : List Nat) : Except ReadError Image :=
  Image.deserializeBits (bytesToBits bytes)

theorem natToBits_length (k v : Nat) : (natToBits k v).length = k := by
  induction k generalizing v with
  | zero => rfl
  | succ k ih => simp [natToBits, ih]

theorem loadBE_snoc (xs : List Bool) (bit : Bool) :
    loadBE (xs ++ [bit]) = 2 * loadBE xs + (if bit then 1 else 0) := by
  simp [loadBE, List.foldl_append]

theorem loadBE_natToBits (k v : Nat) (h : v < 2 ^ k) :
    loadBE (natToBits k v) = v := by
  induction k generalizing v with
  | zero =>
    simp [natToBits, loadBE]
    omega
  | succ k ih =>
    have hdiv : v / 2 < 2 ^ k := by
      rw [Nat.pow_succ] at h
      omega
    rw [natToBits, loadBE_snoc, ih (v / 2) hdiv]
    rcases Nat.mod_two_eq_zero_or_one v with h0 | h1
    · simp [h0]
      omega
    · simp [h1]
      omega

theorem loadBE_lt (bs : List Bool) : loadBE bs < 2 ^ bs.length := by
  induction bs using List.reverseRecOn with
  | nil => simp [loadBE]
  | append_singleton xs bit ih =>
    rw [loadBE_snoc]
    simp only [List.length_append, List.length_singleton, Nat.pow_succ]
    cases bit
    all_goals simp
    all_goals omega

theorem natToBits_loadBE (bs : List Bool) :
    natToBits bs.length (loadBE bs) = bs := by
  induction bs using List.reverseRecOn with
  | nil => rfl
  | append_singleton xs bit ih =>
    rw [loadBE_snoc]
    simp only [List.length_append, List.length_singleton, natToBits]
    have h2 : (2 * loadBE xs + (if bit then 1 else 0)) / 2 = loadBE xs := by
      cases bit
      all_goals simp
      all_goals omega
    have h3 : ((2 * loadBE xs + (if bit then 1 else 0)) % 2 == 1) = bit := by
      cases bit <;> simp [Nat.mul_add_mod]
    rw [h2, h3, ih]

theorem take_append_exact {α : Type} (xs ys : List α) (n : Nat)
    (h : xs.length = n) : (xs ++ ys).take n = xs := by
  subst h
  induction xs with
  | nil => simp
  | cons a xs ih => simp [ih]

theorem drop_append_exact {α : Type} (xs ys : List α) (n : Nat)
    (h : xs.length = n) : (xs ++ ys).drop n = ys := by
  subst h
  induction xs with
  | nil => simp
  | cons a xs ih => simp [ih]

theorem chunksExactAux_congr (k : Nat) (fuel1 fuel2 : Nat) (xs : List Bool)
    (h1 : xs.length ≤ fuel1) (h2 : xs.length ≤ fuel2) :
    chunksExactAux k fuel1 xs = chunksExactAux k fuel2 xs := by
  induction fuel1 generalizing fuel2 xs with
  | zero =>
    have hxs : xs = [] := List.length_eq_zero.mp (Nat.le_zero.mp h1)
    subst hxs
    cases fuel2 with
    | zero => rfl
    | succ fuel2 =>
      simp [chunksExactAux]
      omega
  | succ fuel1 ih =>
    cases fuel2 with
    | zero =>
      have hxs : xs = [] := List.length_eq_zero.mp (Nat.le_zero.mp h2)
      subst hxs
      simp [chunksExactAux]
      omega
    | succ fuel2 =>
      simp only [chunksExactAux]
      by_cases hcond : 0 < k ∧ k ≤ xs.length
      · simp only [if_pos hcond]
        have hlen : (xs.drop k).length ≤ fuel1 := by
          simp [List.length_drop]
          omega
        have hlen2 : (xs.drop k).length ≤ fuel2 := by
          simp [List.length_drop]
          omega
        rw [ih fuel2 (xs.drop k) hlen hlen2]
      · simp only [if_neg hcond]

theorem chunksExact_unfold (k : Nat) (xs : List Bool) :
    chunksExact k xs =
      if 0 < k ∧ k ≤ xs.length then xs.take k :: chunksExact k (xs.drop k)
      else [] := by
  unfold chunksExact
  by_cases hcond : 0 < k ∧ k ≤ xs.length
  · rw [if_pos hcond]
    obtain ⟨m, hm⟩ : ∃ m, xs.length = m + 1 := by
      cases hxs : xs.length with
      | zero => omega
      | succ m => exact ⟨m, rfl⟩
    rw [hm]
    simp only [chunksExactAux]
    rw [if_pos hcond]
    congr 1
    exact chunksExactAux_congr k m (xs.drop k).length (xs.drop k)
      (by simp [List.length_drop]; omega) (Nat.le_refl _)
  · rw [if_neg hcond]
    cases hxs : xs.length with
    | zero => rfl
    | succ m =>
      simp only [chunksExactAux]
      rw [if_neg hcond]

theorem chunksExact_short (k : Nat) (xs : List Bool) (h : xs.length < k) :
    chunksExact k xs = [] := by
  rw [chunksExact_unfold]
  have : ¬(0 < k ∧ k ≤ xs.length) := by omega
  simp [this]

theorem chunksExact_cons (k : Nat) (pre rest : List Bool) (hk : 0 < k)
    (h : pre.length = k) :
    chunksExact k (pre ++ rest) = pre :: chunksExact k rest := by
  rw [chunksExact_unfold]
  have hcond : 0 < k ∧ k ≤ (pre ++ rest).length := by
    simp [List.length_append]
    omega
  rw [if_pos hcond, take_append_exact pre rest k h, drop_append_exact pre rest k h]

theorem chunksExact_flatten_map {α : Type} (k : Nat) (f : α → List Bool)
    (l : List α) (pad : List Bool) (hk : 0 < k)
    (hf : ∀ a ∈ l, (f a).length = k) (hpad : pad.length < k) :
    chunksExact k ((l.map f).flatten ++ pad) = l.map f := by
  induction l with
  | nil =>
    simp only [List.map_nil, List.flatten_nil, List.nil_append]
    exact chunksExact_short k pad hpad
  | cons a l ih =>
    simp only [List.map_cons, List.flatten_cons, List.append_assoc]
    rw [chunksExact_cons k (f a) _ hk (hf a (by simp))]
    rw [ih (fun x hx => hf x (by simp [hx]))]

theorem mapMOpt_map {α β γ : Type} (f : β → Option γ) (g : α → β)
    (l : List α) : mapMOpt f (l.map g) = mapMOpt (fun a => f (g a)) l := by
  induction l with
  | nil => rfl
  | cons a l ih => simp [mapMOpt, ih]

theorem mapMOpt_congr {α β : Type} (f g : α → Option β) (l : List α)
    (h : ∀ a ∈ l, f a = g a) : mapMOpt f l = mapMOpt g l := by
  induction l with
  | nil => rfl
  | cons a l ih =>
    simp only [mapMOpt, h a (by simp)]
    rw [ih (fun x hx => h x (by simp [hx]))]

theorem mapMOpt_some {α β : Type} (f : α → Option β) (g : α → β)
    (l : List α) (h : ∀ a ∈ l, f a = some (g a)) :
    mapMOpt f l = some (l.map g) := by
  induction l with
  | nil => rfl
  | cons a l ih =>
    simp only [mapMOpt, h a (by simp), List.map_cons]
    rw [ih (fun x hx => h x (by simp [hx]))]
    rfl

theorem storeBE_append (pre rest : List Bool) (start len v : Nat)
    (h : pre.length = start) :
    storeBE (pre ++ rest) start len v =
      pre ++ natToBits len v ++ rest.drop len := by
  unfold storeBE
  rw [take_append_exact pre rest start h]
  have hd : (pre ++ rest).drop (start + len) = rest.drop len := by
    subst h
    rw [← List.drop_drop, drop_append_exact pre rest pre.length rfl]
  rw [hd]

theorem drop_replicate {α : Type} (a : α) (m j : Nat) :
    (List.replicate m a).drop j = List.replicate (m - j) a := by
  induction j generalizing m with
  | zero => simp
  | succ j ih =>
    cases m with
    | zero => simp
    | succ m =>
      rw [List.replicate_succ, List.drop_succ_cons, ih, Nat.succ_sub_succ]

theorem packedRecord_length (q : UniformQuantization) (c : Rgb) :
    (packedRecord q c).length = q.bits_r + q.bits_g + q.bits_b := by
  simp [packedRecord, natToBits_length]
  omega

theorem compressStep_eq (q : UniformQuantization) (i : Nat)
    (pre rest : List Bool) (c : Rgb)
    (hpre : pre.length = i * (q.bits_r + q.bits_g + q.bits_b)) :
    compressStep q (q.bits_r + q.bits_g + q.bits_b) (pre ++ rest) (i, c) =
      pre ++ packedRecord q c ++
        ((rest.drop q.bits_r).drop q.bits_g).drop q.bits_b := by
  simp only [compressStep, packedRecord]
  rw [storeBE_append pre rest (i * (q.bits_r + q.bits_g + q.bits_b))
    q.bits_r (q.get_quantized_color c).r hpre]
  rw [storeBE_append (pre ++ natToBits q.bits_r (q.get_quantized_color c).r)
    (rest.drop q.bits_r) (i * (q.bits_r + q.bits_g + q.bits_b) + q.bits_r)
    q.bits_g (q.get_quantized_color c).g
    (by simp [natToBits_length, hpre])]
  rw [storeBE_append
    (pre ++ natToBits q.bits_r (q.get_quantized_color c).r ++
      natToBits q.bits_g (q.get_quantized_color c).g)
    ((rest.drop q.bits_r).drop q.bits_g)
    (i * (q.bits_r + q.bits_g + q.bits_b) + q.bits_r + q.bits_g)
    q.bits_b (q.get_quantized_color c).b
    (by simp [natToBits_length, hpre]; omega)]
  simp [List.append_assoc]

theorem compress_foldl (q : UniformQuantization) (cs : List Rgb) :
    ∀ (i : Nat) (pre : List Bool),
      pre.length = i * (q.bits_r + q.bits_g + q.bits_b) →
      List.foldl (compressStep q (q.bits_r + q.bits_g + q.bits_b))
        (pre ++
          List.replicate (cs.length * (q.bits_r + q.bits_g + q.bits_b)) false)
        (List.enumFrom i cs) =
      pre ++ (cs.map (packedRecord q)).flatten := by
  induction cs with
  | nil =>
    intro i pre hpre
    simp
  | cons c cs ih =>
    intro i pre hpre
    have hstep : compressStep q (q.bits_r + q.bits_g + q.bits_b)
        (pre ++
          List.replicate ((c :: cs).length * (q.bits_r + q.bits_g + q.bits_b))
            false) (i, c) =
        (pre ++ packedRecord q c) ++
          List.replicate (cs.length * (q.bits_r + q.bits_g + q.bits_b))
            false := by
      rw [compressStep_eq q i pre _ c hpre]
      rw [drop_replicate, drop_replicate, drop_replicate]
      simp only [List.append_assoc, List.length_cons]
      congr 3
      simp only [Nat.succ_mul]
      omega
    simp only [List.enumFrom, List.foldl_cons]
    rw [hstep]
    rw [ih (i + 1) (pre ++ packedRecord q c)
      (by simp [packedRecord_length, hpre, Nat.succ_mul])]
    simp [List.append_assoc]

theorem compress_records (q : UniformQuantization) (colors : List Rgb) :
    q.compress colors = (colors.map (packedRecord q)).flatten := by
  have h0 : colors.enum = List.enumFrom 0 colors := rfl
  have h := compress_foldl q colors 0 [] (by simp)
  simp only [List.nil_append] at h
  simp only [UniformQuantization.compress, h0]
  exact h

theorem compress_length (q : UniformQuantization) (colors : List Rgb) :
    (q.compress colors).length =
      colors.length * (q.bits_r + q.bits_g + q.bits_b) := by
  rw [compress_records]
  induction colors with
  | nil => simp
  | cons c cs ih =>
    simp only [List.map_cons, List.flatten_cons, List.length_append, ih,
      packedRecord_length, List.length_cons, Nat.succ_mul]
    omega

theorem quantChannel_lt (b v : Nat) (hb1 : 1 ≤ b) (hb2 : b ≤ 8)
    (hv : v < 256) : quantChannel b v < 2 ^ b := by
  unfold quantChannel
  rw [Nat.shiftRight_eq_div_pow]
  rw [Nat.div_lt_iff_lt_mul (Nat.pow_pos (by norm_num))]
  have h28 : (2 : Nat) ^ b * 2 ^ (8 - b) = 2 ^ 8 := by
    rw [← pow_add]
    congr 1
    omega
  rw [h28]
  omega

theorem get_quantized_lt (q : UniformQuantization) (c : Rgb)
    (hq : ValidScheme q) (h1 : c.r < 256) (h2 : c.g < 256) (h3 : c.b < 256) :
    (q.get_quantized_color c).r < 2 ^ q.bits_r ∧
      (q.get_quantized_color c).g < 2 ^ q.bits_g ∧
      (q.get_quantized_color c).b < 2 ^ q.bits_b := by
  obtain ⟨⟨hr1, hr2⟩, ⟨hg1, hg2⟩, ⟨hb1, hb2⟩⟩ := hq
  unfold UniformQuantization.get_quantized_color
  by_cases h8 : q = ⟨8, 8, 8⟩
  · subst h8
    rw [if_pos rfl]
    have h256 : (2 : Nat) ^ 8 = 256 := by norm_num
    exact ⟨by rw [h256]; exact h1, by rw [h256]; exact h2,
      by rw [h256]; exact h3⟩
  · rw [if_neg h8]
    exact ⟨quantChannel_lt q.bits_r c.r hr1 hr2 h1,
      quantChannel_lt q.bits_g c.g hg1 hg2 h2,
      quantChannel_lt q.bits_b c.b hb1 hb2 h3⟩

theorem decompress_compress_pad (q : UniformQuantization) (colors : List Rgb)
    (pad : List Bool) (hq : ValidScheme q)
    (hc : ∀ c ∈ colors, c.r < 256 ∧ c.g < 256 ∧ c.b < 256)
    (hpad : pad.length < q.bits_r + q.bits_g + q.bits_b) :
    q.decompress (q.compress colors ++ pad) =
      mapMOpt (fun c => q.get_dequantized_color (q.get_quantized_color c))
        colors := by
  obtain ⟨⟨hr1, hr2⟩, ⟨hg1, hg2⟩, ⟨hb1, hb2⟩⟩ := id hq
  simp only [UniformQuantization.decompress]
  rw [compress_records]
  rw [chunksExact_flatten_map (q.bits_r + q.bits_g + q.bits_b)
    (packedRecord q) colors pad (by omega)
    (fun c _ => packedRecord_length q c) hpad]
  rw [mapMOpt_map]
  apply mapMOpt_congr
  intro c hcmem
  obtain ⟨hcr, hcg, hcb⟩ := hc c hcmem
  obtain ⟨hqr, hqg, hqb⟩ := get_quantized_lt q c hq hcr hcg hcb
  simp only [packedRecord, List.append_assoc]
  rw [take_append_exact _ _ q.bits_r
    (natToBits_length q.bits_r (q.get_quantized_color c).r)]
  rw [drop_append_exact _ _ q.bits_r
    (natToBits_length q.bits_r (q.get_quantized_color c).r)]
  rw [take_append_exact _ _ q.bits_g
    (natToBits_length q.bits_g (q.get_quantized_color c).g)]
  rw [← List.drop_drop]
  rw [drop_append_exact _ _ q.bits_r
    (natToBits_length q.bits_r (q.get_quantized_color c).r)]
  rw [drop_append_exact _ _ q.bits_g
    (natToBits_length q.bits_g (q.get_quantized_color c).g)]
  rw [loadBE_natToBits q.bits_r _ hqr, loadBE_natToBits q.bits_g _ hqg,
    loadBE_natToBits q.bits_b _ hqb]

theorem bytesToBits_bitsToBytes (n : Nat) :
    ∀ bits : List Bool, bits.length = 8 * n →
      bytesToBits (bitsToBytes bits) = bits := by
  induction n with
  | zero =>
    intro bits hlen
    have hnil : bits = [] := List.length_eq_zero.mp (by omega)
    subst hnil
    rfl
  | succ n ih =>
    intro bits hlen
    obtain ⟨xs, ys, hxy, hxs8⟩ :
        ∃ xs ys, bits = xs ++ ys ∧ xs.length = 8 :=
      ⟨bits.take 8, bits.drop 8, (List.take_append_drop 8 bits).symm,
        by simp [List.length_take]; omega⟩
    subst hxy
    have hys : ys.length = 8 * n := by
      simp [List.length_append] at hlen
      omega
    simp only [bitsToBytes, bytesToBits]
    rw [chunksExact_cons 8 xs ys (by norm_num) hxs8]
    simp only [List.map_cons, List.flatten_cons]
    have h1 : natToBits 8 (loadBE xs) = xs := by
      have h2 := natToBits_loadBE xs
      rw [hxs8] at h2
      exact h2
    rw [h1]
    have h3 := ih ys hys
    simp only [bitsToBytes, bytesToBits] at h3
    rw [h3]

theorem dequant_quant_888 (c : Rgb) :
    (⟨8, 8, 8⟩ : UniformQuantization).get_dequantized_color
      ((⟨8, 8, 8⟩ : UniformQuantization).get_quantized_color c) = some c := by
  rfl

theorem parse_header (M W H R G B4 P : List Bool)
    (hM : M.length = 64) (hW : W.length = 32) (hH : H.length = 32)
    (hR : R.length = 4) (hG : G.length = 4) (hB : B4.length = 4) :
    (M ++ W ++ H ++ R ++ G ++ B4 ++ P).take 64 = M ∧
    ((M ++ W ++ H ++ R ++ G ++ B4 ++ P).drop 64).take 32 = W ∧
    ((M ++ W ++ H ++ R ++ G ++ B4 ++ P).drop 96).take 32 = H ∧
    ((M ++ W ++ H ++ R ++ G ++ B4 ++ P).drop 128).take 4 = R ∧
    ((M ++ W ++ H ++ R ++ G ++ B4 ++ P).drop 132).take 4 = G ∧
    ((M ++ W ++ H ++ R ++ G ++ B4 ++ P).drop 136).take 4 = B4 ∧
    (M ++ W ++ H ++ R ++ G ++ B4 ++ P).drop 140 = P := by
  refine ⟨?_, ?_, ?_, ?_, ?_, ?_, ?_⟩
  · rw [show M ++ W ++ H ++ R ++ G ++ B4 ++ P =
      M ++ (W ++ H ++ R ++ G ++ B4 ++ P) by simp [List.append_assoc]]
    rw [take_append_exact _ _ 64 hM]
  · rw [show M ++ W ++ H ++ R ++ G ++ B4 ++ P =
      M ++ (W ++ (H ++ R ++ G ++ B4 ++ P)) by simp [List.append_assoc]]
    rw [drop_append_exact _ _ 64 hM]
    rw [take_append_exact _ _ 32 hW]
  · rw [show M ++ W ++ H ++ R ++ G ++ B4 ++ P =
      (M ++ W) ++ (H ++ (R ++ G ++ B4 ++ P)) by simp [List.append_assoc]]
    rw [drop_append_exact _ _ 96 (by simp [hM, hW])]
    rw [take_append_exact _ _ 32 hH]
  · rw [show M ++ W ++ H ++ R ++ G ++ B4 ++ P =
      (M ++ W ++ H) ++ (R ++ (G ++ B4 ++ P)) by simp [List.append_assoc]]
    rw [drop_append_exact _ _ 128 (by simp [hM, hW, hH])]
    rw [take_append_exact _ _ 4 hR]
  · rw [show M ++ W ++ H ++ R ++ G ++ B4 ++ P =
      (M ++ W ++ H ++ R) ++ (G ++ (B4 ++ P)) by simp [List.append_assoc]]
    rw [drop_append_exact _ _ 132 (by simp [hM, hW, hH, hR])]
    rw [take_append_exact _ _ 4 hG]
  · rw [show M ++ W ++ H ++ R ++ G ++ B4 ++ P =
      (M ++ W ++ H ++ R ++ G) ++ (B4 ++ P) by simp [List.append_assoc]]
    rw [drop_append_exact _ _ 136 (by simp [hM, hW, hH, hR, hG])]
    rw [take_append_exact _ _ 4 hB]
  · rw [show M ++ W ++ H ++ R ++ G ++ B4 ++ P =
      (M ++ W ++ H ++ R ++ G ++ B4) ++ P by simp [List.append_assoc]]
    rw [drop_append_exact _ _ 140 (by simp [hM, hW, hH, hR, hG, hB])]

theorem magic_length : (bytesToBits magicBytes).length = 64 := rfl

theorem deserializeBits_decomposed (w h br bg bb : Nat) (P : List Bool)
    (hw : w < 2 ^ 32) (hh : h < 2 ^ 32) (hbr : br < 16) (hbg : bg < 16)
    (hbb : bb < 16) :
    Image.deserializeBits
      (bytesToBits magicBytes ++ natToBits 32 w ++ natToBits 32 h ++
        natToBits 4 br ++ natToBits 4 bg ++ natToBits 4 bb ++ P) =
      (Image.data_read P ⟨br, bg, bb⟩ w h).map
        (fun data => ⟨w, h, ⟨br, bg, bb⟩, data⟩) := by
  obtain ⟨h64, hW, hH, hR, hG, hB, hP⟩ := parse_header
    (bytesToBits magicBytes) (natToBits 32 w) (natToBits 32 h)
    (natToBits 4 br) (natToBits 4 bg) (natToBits 4 bb) P
    magic_length (natToBits_length 32 w) (natToBits_length 32 h)
    (natToBits_length 4 br) (natToBits_length 4 bg) (natToBits_length 4 bb)
  have hlenall : (bytesToBits magicBytes ++ natToBits 32 w ++ natToBits 32 h ++
      natToBits 4 br ++ natToBits 4 bg ++ natToBits 4 bb ++ P).length =
      140 + P.length := by
    simp [List.length_append, natToBits_length, magic_length]
    omega
  simp only [Image.deserializeBits]
  rw [if_neg (by rw [hlenall]; omega)]
  rw [if_neg (by rw [h64]; simp)]
  rw [hW, hH, hR, hG, hB, hP]
  rw [loadBE_natToBits 32 w hw, loadBE_natToBits 32 h hh,
    loadBE_natToBits 4 br (by norm_num; omega),
    loadBE_natToBits 4 bg (by norm_num; omega),
    loadBE_natToBits 4 bb (by norm_num; omega)]

theorem data_read_compress_888 (w h : Nat) (data : List Rgb)
    (hlen : w * h = data.length)
    (hdata : ∀ c ∈ data, c.r < 256 ∧ c.g < 256 ∧ c.b < 256) :
    Image.data_read
      ((⟨8, 8, 8⟩ : UniformQuantization).compress data ++
        List.replicate 4 false) ⟨8, 8, 8⟩ w h = Except.ok data := by
  have hrestlen : ((⟨8, 8, 8⟩ : UniformQuantization).compress data ++
      List.replicate 4 false).length = data.length * 24 + 4 := by
    simp [compress_length]
  simp only [Image.data_read]
  rw [if_neg (by norm_num)]
  rw [if_pos (by rw [hrestlen]; omega)]
  rw [decompress_compress_pad ⟨8, 8, 8⟩ data (List.replicate 4 false)
    (by constructor <;> norm_num) hdata (by simp)]
  rw [mapMOpt_some _ id data (fun c _ => dequant_quant_888 c)]
  simp

theorem dequantChannel_eq_spec (b v : Nat) (hb : b ≤ 7) (hv : v < 2 ^ b) :
    dequantChannel b v = some (dequantSpecChannel b v) := by
  unfold dequantChannel dequantSpecChannel
  rw [if_pos hb]
  have hlt : v <<< (8 - b) < 256 := by
    rw [Nat.shiftLeft_eq]
    calc v * 2 ^ (8 - b) < 2 ^ b * 2 ^ (8 - b) :=
          Nat.mul_lt_mul_of_lt_of_le hv (Nat.le_refl _) (Nat.pow_pos (by norm_num))
      _ = 2 ^ 8 := by rw [← pow_add]; congr 1; omega
      _ = 256 := by norm_num
  rw [Nat.mod_eq_of_lt hlt]

theorem quant_dequant_channel (b v : Nat) (hb1 : 1 ≤ b) (hb : b ≤ 7) :
    quantChannel b (dequantSpecChannel b v) = v := by
  unfold quantChannel dequantSpecChannel
  rw [Nat.shiftLeft_eq, Nat.shiftLeft_eq, Nat.shiftRight_eq_div_pow, one_mul]
  rw [Nat.mul_comm v (2 ^ (8 - b)), Nat.mul_add_div (Nat.pow_pos (by norm_num))]
  have hsmall : 2 ^ (7 - b) < 2 ^ (8 - b) :=
    Nat.pow_lt_pow_right (by norm_num) (by omega)
  rw [Nat.div_eq_of_lt hsmall]
  omega

/-- C1, amended: serializing and then deserializing reproduces the width,
the height, the scheme and the stored colors exactly for every valid image
whose scheme is the full-precision `(8,8,8)` (dimensions within the 32-bit
header fields, channels in the `u8` range, and the constructor invariant
`data.length = width * height`).  For any narrower scheme the claim fails:
the packer re-quantizes the already-quantized stored colors and the reader
stores dequantized colors, so the stored colors are not reproduced (see the
counterexample). -/
theorem serialize_roundtrip_full_precision (w h : Nat) (data : List Rgb)
    (hw : w < 2 ^ 32) (hh : h < 2 ^ 32) (hlen : w * h = data.length)
    (hdata : ∀ c ∈ data, c.r < 256 ∧ c.g < 256 ∧ c.b < 256) :
    ∃ bytes, (Image.mk w h ⟨8, 8, 8⟩ data).serialize = Except.ok bytes ∧
      Image.deserialize bytes = Except.ok (Image.mk w h ⟨8, 8, 8⟩ data) := by
  have hdw : Image.data_write data ⟨8, 8, 8⟩ w h =
      Except.ok ((⟨8, 8, 8⟩ : UniformQuantization).compress data) := by
    simp [Image.data_write, hlen]
  have hser : (Image.mk w h ⟨8, 8, 8⟩ data).serializeBits =
      Except.ok (bytesToBits magicBytes ++ natToBits 32 w ++ natToBits 32 h ++
        natToBits 4 8 ++ natToBits 4 8 ++ natToBits 4 8 ++
        (⟨8, 8, 8⟩ : UniformQuantization).compress data) := by
    simp [Image.serializeBits, hdw]
  have hserialize : (Image.mk w h ⟨8, 8, 8⟩ data).serialize =
      Except.ok (bitsToBytes (padToByte
        (bytesToBits magicBytes ++ natToBits 32 w ++ natToBits 32 h ++
          natToBits 4 8 ++ natToBits 4 8 ++ natToBits 4 8 ++
          (⟨8, 8, 8⟩ : UniformQuantization).compress data))) := by
    simp [Image.serialize, hser]
  have hlenall : (bytesToBits magicBytes ++ natToBits 32 w ++ natToBits 32 h ++
      natToBits 4 8 ++ natToBits 4 8 ++ natToBits 4 8 ++
      (⟨8, 8, 8⟩ : UniformQuantization).compress data).length =
      140 + 24 * data.length := by
    simp [List.length_append, natToBits_length, magic_length, compress_length]
    omega
  have hpad : padToByte
      (bytesToBits magicBytes ++ natToBits 32 w ++ natToBits 32 h ++
        natToBits 4 8 ++ natToBits 4 8 ++ natToBits 4 8 ++
        (⟨8, 8, 8⟩ : UniformQuantization).compress data) =
      bytesToBits magicBytes ++ natToBits 32 w ++ natToBits 32 h ++
        natToBits 4 8 ++ natToBits 4 8 ++ natToBits 4 8 ++
        ((⟨8, 8, 8⟩ : UniformQuantization).compress data ++
          List.replicate 4 false) := by
    simp only [padToByte]
    rw [hlenall]
    rw [show (8 - (140 + 24 * data.length) % 8) % 8 = 4 by omega]
    simp [List.append_assoc]
  have hpaddedlen : (bytesToBits magicBytes ++ natToBits 32 w ++
      natToBits 32 h ++ natToBits 4 8 ++ natToBits 4 8 ++ natToBits 4 8 ++
      ((⟨8, 8, 8⟩ : UniformQuantization).compress data ++
        List.replicate 4 false)).length = 8 * (18 + 3 * data.length) := by
    simp [List.length_append, natToBits_length, magic_length, compress_length]
    omega
  refine ⟨_, hserialize, ?_⟩
  unfold Image.deserialize
  rw [hpad]
  rw [bytesToBits_bitsToBytes (18 + 3 * data.length) _ hpaddedlen]
  rw [deserializeBits_decomposed w h 8 8 8 _ hw hh (by norm_num)
    (by norm_num) (by norm_num)]
  rw [data_read_compress_888 w h data hlen hdata]
  rfl

/-- C1, counterexample: for the narrow scheme `(1,1,1)` the
serialize/deserialize round trip does not reproduce the stored colors.  The
1×1 image built from `(255,255,255)` stores the quantized color `(1,1,1)`;
the packer re-quantizes it to `(0,0,0)` when serializing and reading the
bytes back yields the dequantized `(64,64,64)`, not the stored `(1,1,1)`. -/
theorem roundtrip_narrow_scheme_counterexample :
    Image.new 1 1 ⟨1, 1, 1⟩ [⟨255, 255, 255⟩] =
      Except.ok (Image.mk 1 1 ⟨1, 1, 1⟩ [⟨1, 1, 1⟩]) ∧
    (Image.mk 1 1 ⟨1, 1, 1⟩ [⟨1, 1, 1⟩]).serialize =
      Except.ok [103, 114, 110, 102, 108, 100, 52, 50,
        0, 0, 0, 1, 0, 0, 0, 1, 17, 16] ∧
    Image.deserialize [103, 114, 110, 102, 108, 100, 52, 50,
        0, 0, 0, 1, 0, 0, 0, 1, 17, 16] =
      Except.ok (Image.mk 1 1 ⟨1, 1, 1⟩ [⟨64, 64, 64⟩]) ∧
    (⟨64, 64, 64⟩ : Rgb) ≠ ⟨1, 1, 1⟩ :=
  ⟨rfl, rfl, rfl, by decide⟩

/-- C1, witness instance of `serialize_roundtrip_full_precision` at the
concrete 1×1 image with color `(5,6,7)`. -/
theorem serialize_roundtrip_full_precision_witness :
    ∃ bytes, (Image.mk 1 1 ⟨8, 8, 8⟩ [⟨5, 6, 7⟩]).serialize =
        Except.ok bytes ∧
      Image.deserialize bytes =
        Except.ok (Image.mk 1 1 ⟨8, 8, 8⟩ [⟨5, 6, 7⟩]) :=
  serialize_roundtrip_full_precision 1 1 [⟨5, 6, 7⟩] (by norm_num)
    (by norm_num) rfl (by decide)

/-- C2, amended: on every valid scheme whose three channels are all at most
7 bits, dequantizing valid indices computes each channel by the spec formula
`(index << (8 - b)) + (1 << (7 - b))`; the scheme `(8,8,8)` is the identity;
and the worked `(5,6,5)` examples hold.  (The claim's further assertion that
a `b = 8` channel of a mixed scheme is returned unchanged fails: there the
code's `u8` expression `7 - 8` overflows and the program aborts, see the
counterexample.) -/
theorem dequantize_formula (q : UniformQuantization) (c : Rgb)
    (hq : ValidScheme q)
    (h7 : q.bits_r ≤ 7 ∧ q.bits_g ≤ 7 ∧ q.bits_b ≤ 7)
    (hr : c.r < 2 ^ q.bits_r) (hg : c.g < 2 ^ q.bits_g)
    (hb : c.b < 2 ^ q.bits_b) :
    q.get_dequantized_color c =
      some ⟨dequantSpecChannel q.bits_r c.r, dequantSpecChannel q.bits_g c.g,
        dequantSpecChannel q.bits_b c.b⟩ ∧
    (∀ d : Rgb,
      (⟨8, 8, 8⟩ : UniformQuantization).get_dequantized_color d = some d) ∧
    (⟨5, 6, 5⟩ : UniformQuantization).get_dequantized_color ⟨0, 0, 0⟩ =
      some ⟨4, 2, 4⟩ ∧
    (⟨5, 6, 5⟩ : UniformQuantization).get_dequantized_color ⟨31, 63, 31⟩ =
      some ⟨252, 254, 252⟩ := by
  refine ⟨?_, fun d => rfl, by decide, by decide⟩
  have hne : q ≠ ⟨8, 8, 8⟩ := by
    intro heq
    subst heq
    exact absurd h7.1 (by decide)
  simp only [UniformQuantization.get_dequantized_color, if_neg hne]
  rw [dequantChannel_eq_spec q.bits_r c.r h7.1 hr,
    dequantChannel_eq_spec q.bits_g c.g h7.2.1 hg,
    dequantChannel_eq_spec q.bits_b c.b h7.2.2 hb]
  rfl

/-- C2, counterexample: on the valid mixed scheme `(8,1,1)` the claim
predicts that dequantizing `(0,0,0)` returns the red channel unchanged and
`64` on the others, i.e. `(0,64,64)`; instead the code's `u8` expression
`7 - 8` overflows and the program aborts (`none`). -/
theorem dequantize_mixed_scheme_counterexample :
    (⟨8, 1, 1⟩ : UniformQuantization).get_dequantized_color ⟨0, 0, 0⟩ =
      none ∧
    ¬ ((⟨8, 1, 1⟩ : UniformQuantization).get_dequantized_color ⟨0, 0, 0⟩ =
      some ⟨0, 64, 64⟩) :=
  ⟨rfl, by decide⟩

/-- C2, witness instance of `dequantize_formula` at scheme `(5,6,5)` and
index `(1,2,3)`. -/
theorem dequantize_formula_witness :
    (⟨5, 6, 5⟩ : UniformQuantization).get_dequantized_color ⟨1, 2, 3⟩ =
      some ⟨dequantSpecChannel 5 1, dequantSpecChannel 6 2,
        dequantSpecChannel 5 3⟩ :=
  (dequantize_formula ⟨5, 6, 5⟩ ⟨1, 2, 3⟩ (by decide) (by decide) (by decide)
    (by decide) (by decide)).1

/-- C4: packing and then unpacking with the same scheme yields, record by
record, exactly `dequantize (quantize original)` (failure of either side
propagating identically); in particular the single color `(12,6,12)` under
`(5,6,5)` packs to the 16-bit chunk `0000100000100001` and unpacks back to
`(12,6,12)` = `dequantize (quantize (12,6,12))`. -/
theorem pack_unpack_roundtrip (q : UniformQuantization) (colors : List Rgb)
    (hq : ValidScheme q)
    (hc : ∀ c ∈ colors, c.r < 256 ∧ c.g < 256 ∧ c.b < 256) :
    q.decompress (q.compress colors) =
      mapMOpt (fun c => q.get_dequantized_color (q.get_quantized_color c))
        colors ∧
    (⟨5, 6, 5⟩ : UniformQuantization).compress [⟨12, 6, 12⟩] =
      [false, false, false, false, true, false, false, false, false, false,
        true, false, false, false, false, true] ∧
    (⟨5, 6, 5⟩ : UniformQuantization).decompress
      [false, false, false, false, true, false, false, false, false, false,
        true, false, false, false, false, true] = some [⟨12, 6, 12⟩] ∧
    (⟨5, 6, 5⟩ : UniformQuantization).get_dequantized_color
      ((⟨5, 6, 5⟩ : UniformQuantization).get_quantized_color ⟨12, 6, 12⟩) =
      some ⟨12, 6, 12⟩ := by
  refine ⟨?_, by decide, by decide, by decide⟩
  obtain ⟨⟨hr1, _⟩, _, _⟩ := id hq
  rw [← List.append_nil (q.compress colors)]
  exact decompress_compress_pad q colors [] hq hc (by simp; omega)

/-- C4, witness instance of `pack_unpack_roundtrip` at scheme `(5,6,5)` and
the single record `(12,6,12)`. -/
theorem pack_unpack_roundtrip_witness :
    (⟨5, 6, 5⟩ : UniformQuantization).decompress
        ((⟨5, 6, 5⟩ : UniformQuantization).compress [⟨12, 6, 12⟩]) =
      mapMOpt
        (fun c => (⟨5, 6, 5⟩ : UniformQuantization).get_dequantized_color
          ((⟨5, 6, 5⟩ : UniformQuantization).get_quantized_color c))
        [⟨12, 6, 12⟩] :=
  (pack_unpack_roundtrip ⟨5, 6, 5⟩ [⟨12, 6, 12⟩] (by decide) (by decide)).1

/-- C5, amended: `compress` lays the records out as the concatenation, in
order, of each record's quantized channels in order r, g, b, each channel
big-endian in exactly its field width with no padding, so the output length
is `records × (bits_r + bits_g + bits_b)` bits; the worked example
`(224,224,224)` under `(2,2,2)` packs to the 6-bit sequence `111111` — but
it quantizes to `(3,3,3)`, not to the claimed `(1,1,1)` (see the
counterexample). -/
theorem pack_layout (q : UniformQuantization) (colors : List Rgb) :
    q.compress colors = (colors.map (packedRecord q)).flatten ∧
    (q.compress colors).length =
      colors.length * (q.bits_r + q.bits_g + q.bits_b) ∧
    (⟨2, 2, 2⟩ : UniformQuantization).get_quantized_color ⟨224, 224, 224⟩ =
      ⟨3, 3, 3⟩ ∧
    (⟨2, 2, 2⟩ : UniformQuantization).compress [⟨224, 224, 224⟩] =
      [true, true, true, true, true, true] :=
  ⟨compress_records q colors, compress_length q colors, by decide, by decide⟩

/-- C5, counterexample: under scheme `(2,2,2)` the full-precision input
`(224,224,224)` quantizes to `(3,3,3)` (`224 >> 6 = 3`), not to the claimed
`(1,1,1)`. -/
theorem pack_quantized_value_counterexample :
    ¬ ((⟨2, 2, 2⟩ : UniformQuantization).get_quantized_color
      ⟨224, 224, 224⟩ = ⟨1, 1, 1⟩) := by
  decide

/-- C6, amended: the pixel iterator visits the stored colors in order, and
assigns to the element at linear index `i` the coordinates `x = i / width`
and `y = i % height` (not `x = i % width`, `y = i / width` as claimed — see
the counterexample). -/
theorem pixels_index_formula (img : Image) (i : Nat) :
    img.pixels.length = img.data.length ∧
    img.pixels[i]? = img.data[i]?.map
      (fun c => ⟨i / img.width, i % img.height, c⟩) := by
  constructor
  · simp [Image.pixels]
  · simp [Image.pixels, List.getElem?_map, List.getElem?_enum, Option.map_map]
    rfl

/-- C6, counterexample: in the 2×2 image whose colors are
`(0,0,0), (1,1,1), (2,2,2), (3,3,3)`, the pixel at linear index 1 is
`(x, y) = (0, 1)` under the code, while the claim's formula
`x = 1 % 2 = 1`, `y = 1 / 2 = 0` predicts `(1, 0)`. -/
theorem pixels_claim_counterexample :
    ¬ ((Image.mk 2 2 ⟨8, 8, 8⟩
        [⟨0, 0, 0⟩, ⟨1, 1, 1⟩, ⟨2, 2, 2⟩, ⟨3, 3, 3⟩]).pixels[1]? =
      some ⟨1, 0, ⟨1, 1, 1⟩⟩) := by
  decide

/-- C7: creating the 1×1 image with scheme `(8,8,8)` and the single color
`(0,0,0)` and serializing it yields exactly the 21 bytes
`[103,114,110,102,108,100,52,50, 0,0,0,1, 0,0,0,1, 136,128, 0,0,0]`. -/
theorem serialize_literal_example :
    Image.new 1 1 ⟨8, 8, 8⟩ [⟨0, 0, 0⟩] =
      Except.ok (Image.mk 1 1 ⟨8, 8, 8⟩ [⟨0, 0, 0⟩]) ∧
    (Image.mk 1 1 ⟨8, 8, 8⟩ [⟨0, 0, 0⟩]).serialize =
      Except.ok [103, 114, 110, 102, 108, 100, 52, 50,
        0, 0, 0, 1, 0, 0, 0, 1, 136, 128, 0, 0, 0] :=
  ⟨rfl, rfl⟩

/-- C8: on every valid scheme and `u8` color, quantization computes every
channel as `value >> (8 - b)`, the result channel is an index below `2^b`,
full white under `(5,6,5)` quantizes to `(31,63,31)`, and the `(8,8,8)`
scheme is the identity. -/
theorem quantize_formula (q : UniformQuantization) (c : Rgb)
    (hq : ValidScheme q) (hr : c.r < 256) (hg : c.g < 256)
    (hb : c.b < 256) :
    q.get_quantized_color c =
      ⟨c.r >>> (8 - q.bits_r), c.g >>> (8 - q.bits_g),
        c.b >>> (8 - q.bits_b)⟩ ∧
    (q.get_quantized_color c).r < 2 ^ q.bits_r ∧
    (q.get_quantized_color c).g < 2 ^ q.bits_g ∧
    (q.get_quantized_color c).b < 2 ^ q.bits_b ∧
    (⟨5, 6, 5⟩ : UniformQuantization).get_quantized_color
      ⟨255, 255, 255⟩ = ⟨31, 63, 31⟩ ∧
    (∀ d : Rgb, (⟨8, 8, 8⟩ : UniformQuantization).get_quantized_color d = d) := by
  obtain ⟨hq1, hq2, hq3⟩ := get_quantized_lt q c hq hr hg hb
  refine ⟨?_, hq1, hq2, hq3, by decide, fun d => rfl⟩
  by_cases h8 : q = ⟨8, 8, 8⟩
  · subst h8
    rfl
  · simp only [UniformQuantization.get_quantized_color, if_neg h8]
    rfl

/-- C8, witness instance of `quantize_formula` at scheme `(5,6,5)` and
color `(100,200,50)`. -/
theorem quantize_formula_witness :
    (⟨5, 6, 5⟩ : UniformQuantization).get_quantized_color ⟨100, 200, 50⟩ =
      ⟨100 >>> 3, 200 >>> 2, 50 >>> 3⟩ :=
  (quantize_formula ⟨5, 6, 5⟩ ⟨100, 200, 50⟩ (by decide) (by decide)
    (by decide) (by decide)).1

/-- C3, amended: whenever the number of whole chunks found in the pixel
region (`rest.len() / chunk`) differs from the declared `width * height` —
fewer chunks, or one or more whole chunks of excess — deserialization fails
with a `DimensionMismatch` naming the found and the expected chunk counts.
Excess trailing bytes are silently ignored only while they amount to less
than one whole extra chunk: the 22-byte buffer (one trailing byte beyond the
valid 21-byte 1×1 image) deserializes fine, while the 24-byte buffer (three
trailing bytes, a whole extra 24-bit chunk) is rejected. -/
theorem deserialize_chunk_count (rest : List Bool) (q : UniformQuantization)
    (w h : Nat) (hq : ValidScheme q)
    (hmis : rest.length / (q.bits_r + q.bits_g + q.bits_b) ≠ w * h) :
    Image.data_read rest q w h =
      Except.error (ReadError.dimensionMismatch
        (rest.length / (q.bits_r + q.bits_g + q.bits_b)) (w * h)) ∧
    Image.deserialize [103, 114, 110, 102, 108, 100, 52, 50,
        0, 0, 0, 1, 0, 0, 0, 1, 136, 128, 0, 0, 0, 0] =
      Except.ok (Image.mk 1 1 ⟨8, 8, 8⟩ [⟨0, 0, 0⟩]) ∧
    Image.deserialize [103, 114, 110, 102, 108, 100, 52, 50,
        0, 0, 0, 1, 0, 0, 0, 1, 136, 128, 0, 0, 0, 0, 0, 0] =
      Except.error (ReadError.dimensionMismatch 2 1) := by
  refine ⟨?_, rfl, rfl⟩
  obtain ⟨⟨hr1, _⟩, _, _⟩ := hq
  simp only [Image.data_read]
  rw [if_neg (by omega)]
  rw [if_neg (fun heq => hmis heq.symm)]

/-- C3, counterexample: a buffer with excess trailing bytes does not always
deserialize successfully — the valid 21-byte 1×1 `(8,8,8)` image followed by
three excess zero bytes contains one whole extra 24-bit chunk, and
deserialization rejects it with `DimensionMismatch` (found 2, expected 1)
instead of ignoring the excess. -/
theorem deserialize_excess_chunk_counterexample :
    Image.deserialize [103, 114, 110, 102, 108, 100, 52, 50,
        0, 0, 0, 1, 0, 0, 0, 1, 136, 128, 0, 0, 0, 0, 0, 0] =
      Except.error (ReadError.dimensionMismatch 2 1) := rfl

/-- C3, witness instance of `deserialize_chunk_count`: an empty pixel region
under scheme `(5,6,5)` holds 0 chunks while a 1×1 image expects 1, so
`data_read` reports `DimensionMismatch` with found 0, expected 1. -/
theorem deserialize_chunk_count_witness :
    Image.data_read [] ⟨5, 6, 5⟩ 1 1 =
      Except.error (ReadError.dimensionMismatch 0 1) :=
  (deserialize_chunk_count [] ⟨5, 6, 5⟩ 1 1 (by decide) (by decide)).1

/-- C9: image construction succeeds exactly when the supplied color list's
length equals `width * height` (so `width = height = 0` demands the empty
list), fails with `InvalidImageDimension(found, expected)` otherwise, and
every constructed image satisfies `data.length = width * height` with the
requested dimensions and scheme. -/
theorem image_new_dimension_check (w h : Nat) (q : UniformQuantization)
    (data : List Rgb) (hq : ValidScheme q) :
    ((∃ img, Image.new w h q data = Except.ok img) ↔
      data.length = w * h) ∧
    (data.length ≠ w * h →
      Image.new w h q data =
        Except.error (GreenfieldError.InvalidImageDimension data.length
          (w * h))) ∧
    (∀ img, Image.new w h q data = Except.ok img →
      img.data.length = img.width * img.height ∧ img.width = w ∧
        img.height = h ∧ img.uniform_quantization = q) := by
  by_cases hcond : w * h = data.length
  · have hok : Image.new w h q data =
        Except.ok ⟨w, h, q, data.map q.get_quantized_color⟩ := by
      simp [Image.new, if_pos hcond]
    refine ⟨⟨fun _ => hcond.symm, fun _ => ⟨_, hok⟩⟩,
      fun hne => absurd hcond.symm hne, ?_⟩
    intro img himg
    rw [hok] at himg
    cases himg
    simp [List.length_map]
    omega
  · have herr : Image.new w h q data =
        Except.error (GreenfieldError.InvalidImageDimension data.length
          (w * h)) := by
      simp [Image.new, if_neg hcond]
    refine ⟨⟨?_, fun hlen => absurd hlen.symm hcond⟩, fun _ => herr, ?_⟩
    · rintro ⟨img, himg⟩
      rw [herr] at himg
      cases himg
    · intro img himg
      rw [herr] at himg
      cases himg

/-- C9, witness instance of `image_new_dimension_check` at a 2×3 image with
six colors. -/
theorem image_new_dimension_check_witness :
    (∃ img, Image.new 2 3 ⟨5, 6, 5⟩ (List.replicate 6 ⟨0, 0, 0⟩) =
      Except.ok img) ↔ (List.replicate 6 (⟨0, 0, 0⟩ : Rgb)).length = 2 * 3 :=
  (image_new_dimension_check 2 3 ⟨5, 6, 5⟩ (List.replicate 6 ⟨0, 0, 0⟩)
    (by decide)).1

/-- C10: on every valid scheme whose channels are either all 8 bits or all
at most 7 bits, quantize is a left inverse of dequantize on valid indices:
dequantizing and then re-quantizing returns the original indices. -/
theorem quantize_left_inverse_dequantize (q : UniformQuantization) (c : Rgb)
    (hq : ValidScheme q)
    (hcase : q = ⟨8, 8, 8⟩ ∨
      (q.bits_r ≤ 7 ∧ q.bits_g ≤ 7 ∧ q.bits_b ≤ 7))
    (hr : c.r < 2 ^ q.bits_r) (hg : c.g < 2 ^ q.bits_g)
    (hb : c.b < 2 ^ q.bits_b) :
    (q.get_dequantized_color c).map q.get_quantized_color = some c := by
  rcases hcase with h8 | h7
  · subst h8
    rfl
  · obtain ⟨⟨hr1, _⟩, ⟨hg1, _⟩, ⟨hb1, _⟩⟩ := hq
    have hne : q ≠ ⟨8, 8, 8⟩ := by
      intro heq
      subst heq
      exact absurd h7.1 (by decide)
    simp only [UniformQuantization.get_dequantized_color, if_neg hne]
    rw [dequantChannel_eq_spec q.bits_r c.r h7.1 hr,
      dequantChannel_eq_spec q.bits_g c.g h7.2.1 hg,
      dequantChannel_eq_spec q.bits_b c.b h7.2.2 hb]
    show some (q.get_quantized_color
      ⟨dequantSpecChannel q.bits_r c.r, dequantSpecChannel q.bits_g c.g,
        dequantSpecChannel q.bits_b c.b⟩) = some c
    simp only [UniformQuantization.get_quantized_color, if_neg hne]
    rw [quant_dequant_channel q.bits_r c.r hr1 h7.1,
      quant_dequant_channel q.bits_g c.g hg1 h7.2.1,
      quant_dequant_channel q.bits_b c.b hb1 h7.2.2]

/-- C10, witness instance of `quantize_left_inverse_dequantize` at scheme
`(5,6,5)` and indices `(12,34,5)`. -/
theorem quantize_left_inverse_dequantize_witness :
    ((⟨5, 6, 5⟩ : UniformQuantization).get_dequantized_color
        ⟨12, 34, 5⟩).map
      (⟨5, 6, 5⟩ : UniformQuantization).get_quantized_color =
      some ⟨12, 34, 5⟩ :=
  quantize_left_inverse_dequantize ⟨5, 6, 5⟩ ⟨12, 34, 5⟩ (by decide)
    (Or.inr (by decide)) (by decide) (by decide) (by decide)

end Greenfield
